import Mathlib

/-!
Verification of the command/transliteration text-processing pipeline of a
browser-based dictation/typing editor. The JavaScript source is shallowly
embedded: strings become `List Char`, the JS regular-expression passes become
explicit scanning functions, the asynchronous remote lookup becomes an
explicit oracle argument, and the DOM text buffer becomes a plain character
list with an offset cursor.
-/

namespace SDM

/-- Character class of the JS `\s` regex escape (ECMAScript WhiteSpace and
LineTerminator code points). -/
def wsChar (c : Char) : Bool :=
  let n := c.toNat
  n == 9 || n == 10 || n == 11 || n == 12 || n == 13 || n == 32 ||
    n == 160 || n == 5760 || (decide (8192 ≤ n) && decide (n ≤ 8202)) ||
    n == 8232 || n == 8233 || n == 8239 || n == 8287 || n == 12288 || n == 65279

/-- Character class of the JS `\w` regex escape: `[A-Za-z0-9_]`. -/
def wordChar (c : Char) : Bool :=
  let n := c.toNat
  (decide (48 ≤ n) && decide (n ≤ 57)) || (decide (65 ≤ n) && decide (n ≤ 90)) ||
    n == 95 || (decide (97 ≤ n) && decide (n ≤ 122))

/-- The punctuation class `[,.!?;:]` used by `cleanSpacing`. -/
def punctChar (c : Char) : Bool :=
  let n := c.toNat
  n == 44 || n == 46 || n == 33 || n == 63 || n == 59 || n == 58

/-- ASCII letter class of the JS regex `[a-zA-Z]`. -/
def asciiLetter (c : Char) : Bool :=
  let n := c.toNat
  (decide (65 ≤ n) && decide (n ≤ 90)) || (decide (97 ≤ n) && decide (n ≤ 122))

/-- JS `String.prototype.trim`: strip leading and trailing whitespace. -/
def jsTrim (l : List Char) : List Char :=
  ((l.dropWhile wsChar).reverse.dropWhile wsChar).reverse

/-- Helper for `isSubstring`: does `needle` occur at the start of the second list. -/
def isPrefixL : List Char → List Char → Bool
  | [], _ => true
  | _ :: _, [] => false
  | c :: cs, d :: ds => c == d && isPrefixL cs ds

/-- JS `String.prototype.includes`: does `needle` occur somewhere in the haystack. -/
def isSubstring (needle : List Char) : List Char → Bool
  | [] => needle == []
  | d :: ds => isPrefixL needle (d :: ds) || isSubstring needle ds

/-- Accumulator worker for `splitWords`; `cur` holds the current word reversed. -/
def splitWordsAux (cur : List Char) : List Char → List (List Char)
  | [] => if cur == [] then [] else [cur.reverse]
  | c :: cs =>
    if wsChar c then
      if cur == [] then splitWordsAux [] cs
      else cur.reverse :: splitWordsAux [] cs
    else splitWordsAux (c :: cur) cs

/-- JS `text.split(/\s+/).filter(w => w)`: the maximal runs of non-whitespace
characters, in order. -/
def splitWords (l : List Char) : List (List Char) := splitWordsAux [] l

/-- JS `text.charAt(0).toUpperCase() + text.slice(1)`. -/
def capitalizeFirst : List Char → List Char
  | [] => []
  | c :: cs => c.toUpper :: cs

end SDM

namespace CommandProcessor

open SDM

/-- The `commandType` tag strings returned by `CommandProcessor.process`. -/
inductive CommandType
  | PUNCTUATION
  | NAVIGATION
  | EDITING
deriving DecidableEq

/-- The object literal returned by `CommandProcessor.process`; absent JS
fields are modelled as `none`. -/
structure ProcessResult where
  text : List Char
  hasCommand : Bool
  commandType : Option CommandType := none
  command : Option String := none
  originalCommand : Option (List Char) := none
deriving DecidableEq

/-- The `punctuation` lexicon of `initializeCommands`, in insertion order. -/
def punctuationCommands : List (List Char × List Char) :=
  [("comma".data, [',']), ("period".data, ['.']), ("full stop".data, ['.']),
   ("question mark".data, ['?']), ("exclamation mark".data, ['!']),
   ("exclamation point".data, ['!']), ("colon".data, [':']),
   ("semicolon".data, [';']), ("dash".data, ['-']), ("hyphen".data, ['-']),
   ("quote".data, ['"']), ("apostrophe".data, ['\'']),
   ("open parenthesis".data, ['(']), ("close parenthesis".data, [')']),
   ("open bracket".data, ['[']), ("close bracket".data, [']'])]

/-- The `navigation` lexicon of `initializeCommands`, in insertion order. -/
def navigationCommands : List (List Char × String) :=
  [("new line".data, "NEW_LINE"), ("enter".data, "NEW_LINE"),
   ("new paragraph".data, "NEW_PARAGRAPH"), ("paragraph".data, "NEW_PARAGRAPH")]

/-- The `editing` lexicon of `initializeCommands`, in insertion order. -/
def editingCommands : List (List Char × String) :=
  [("delete that".data, "DELETE_SENTENCE"), ("delete sentence".data, "DELETE_SENTENCE"),
   ("undo".data, "UNDO"), ("redo".data, "REDO")]

/-- `CommandProcessor.process`: falsy guard, lower-case and trim, exact match
against the punctuation lexicon, then equality-or-substring match against the
navigation and editing lexicons, else plain text. -/
def process (text : List Char) : ProcessResult :=
  if text = [] then { text := [], hasCommand := false }
  else
    let lowerText := jsTrim (text.map Char.toLower)
    match punctuationCommands.find? (fun kv => lowerText == kv.1) with
    | some kv =>
        { text := kv.2, hasCommand := true,
          commandType := some CommandType.PUNCTUATION, originalCommand := some kv.1 }
    | none =>
      match navigationCommands.find? (fun kv => lowerText == kv.1 || isSubstring kv.1 lowerText) with
      | some kv =>
          { text := [], hasCommand := true, commandType := some CommandType.NAVIGATION,
            command := some kv.2, originalCommand := some kv.1 }
      | none =>
        match editingCommands.find? (fun kv => lowerText == kv.1 || isSubstring kv.1 lowerText) with
        | some kv =>
            { text := [], hasCommand := true, commandType := some CommandType.EDITING,
              command := some kv.2, originalCommand := some kv.1 }
        | none => { text := text, hasCommand := false }

/-- `CommandProcessor.autoCapitalize`: capitalize at document start, capitalize
with a leading space after sentence-ending punctuation, otherwise add a
joining space when the previous text does not end in one. -/
def autoCapitalize (text previousText : List Char) : List Char :=
  if text = [] then text
  else if previousText = [] ∨ jsTrim previousText = [] then capitalizeFirst text
  else
    let lastChar := (jsTrim previousText).getLast?
    if lastChar = some '.' ∨ lastChar = some '!' ∨ lastChar = some '?' then
      ' ' :: capitalizeFirst text
    else if previousText ≠ [] ∧ ¬ previousText.getLast? = some ' ' then
      ' ' :: text
    else text

/-- First pass of `cleanSpacing`, JS `text.replace(/\s+/g, ' ')`: each maximal
whitespace run becomes one space. The Boolean records whether the scanner is
inside a run whose replacement space was already emitted. -/
def collapseWhitespace : Bool → List Char → List Char
  | _, [] => []
  | inRun, c :: cs =>
    if wsChar c then
      if inRun then collapseWhitespace true cs
      else ' ' :: collapseWhitespace true cs
    else c :: collapseWhitespace false cs

/-- Second pass of `cleanSpacing`, JS `text.replace(/\s+([,.!?;:])/g, '$1')`:
a whitespace run directly followed by punctuation is deleted. `pending` holds
the whitespace run read so far, reversed. -/
def dropSpaceBeforePunct (pending : List Char) : List Char → List Char
  | [] => pending.reverse
  | c :: cs =>
    if wsChar c then dropSpaceBeforePunct (c :: pending) cs
    else if punctChar c && !(pending == []) then c :: dropSpaceBeforePunct [] cs
    else pending.reverse ++ c :: dropSpaceBeforePunct [] cs

/-- Third pass of `cleanSpacing`, JS `text.replace(/([,.!?;:])(\w)/g, '$1 $2')`:
insert a space between punctuation and a directly following word character;
the match consumes both characters. -/
def addSpaceAfterPunct : List Char → List Char
  | [] => []
  | [c] => [c]
  | c :: d :: cs =>
    if punctChar c && wordChar d then c :: ' ' :: d :: addSpaceAfterPunct cs
    else c :: addSpaceAfterPunct (d :: cs)

/-- `CommandProcessor.cleanSpacing`: the three replacement passes in source order. -/
def cleanSpacing (text : List Char) : List Char :=
  addSpaceAfterPunct (dropSpaceBeforePunct [] (collapseWhitespace false text))

end CommandProcessor

namespace SDM

/-- Whitespace characters are untouched by `Char.toLower`. -/
theorem toLower_of_ws (c : Char) (h : wsChar c = true) : c.toLower = c := by
  have hn : ¬ (c.toNat ≥ 65 ∧ c.toNat ≤ 90) := by
    simp only [wsChar, Bool.or_eq_true, beq_iff_eq, Bool.and_eq_true,
      decide_eq_true_eq] at h
    omega
  simp [Char.toLower, hn]

/-- Dropping whitespace from an all-whitespace list leaves nothing. -/
theorem dropWhile_ws_eq_nil (l : List Char) (h : ∀ c ∈ l, wsChar c = true) :
    l.dropWhile wsChar = [] := by
  induction l with
  | nil => rfl
  | cons c cs ih =>
      rw [List.dropWhile_cons, if_pos (h c (by simp))]
      exact ih (fun d hd => h d (by simp [hd]))

/-- Trimming an all-whitespace list gives the empty list. -/
theorem jsTrim_eq_nil (l : List Char) (h : ∀ c ∈ l, wsChar c = true) :
    jsTrim l = [] := by
  unfold jsTrim
  rw [dropWhile_ws_eq_nil l h]
  rfl

end SDM

namespace Claims

open SDM CommandProcessor

/-- Claim C1: every punctuation trigger classifies, by exact equality, to its
mapped literal as a punctuation command, while the same trigger embedded in
the utterance "I said T" is not treated as a punctuation command and comes
back as plain text carrying the original utterance. -/
theorem claim_C1_punctuation_exact_match :
    ∀ kv ∈ punctuationCommands,
      process kv.1 =
        { text := kv.2, hasCommand := true,
          commandType := some CommandType.PUNCTUATION, originalCommand := some kv.1 } ∧
      process ("I said ".data ++ kv.1) =
        { text := "I said ".data ++ kv.1, hasCommand := false } := by
  decide

/-- Witness for claim C1 at the trigger "comma". -/
theorem claim_C1_witness :
    process "comma".data =
      { text := [','], hasCommand := true,
        commandType := some CommandType.PUNCTUATION, originalCommand := some "comma".data } ∧
    process ("I said ".data ++ "comma".data) =
      { text := "I said ".data ++ "comma".data, hasCommand := false } :=
  claim_C1_punctuation_exact_match ("comma".data, [',']) (by decide)

/-- Claim C6: every navigation or editing trigger, embedded in the utterance
"please T now", classifies by substring containment to its directive, with the
navigation lexicon consulted before the editing lexicon. -/
theorem claim_C6_substring_directives :
    (∀ kv ∈ navigationCommands,
      process ("please ".data ++ kv.1 ++ " now".data) =
        { text := [], hasCommand := true, commandType := some CommandType.NAVIGATION,
          command := some kv.2, originalCommand := some kv.1 }) ∧
    (∀ kv ∈ editingCommands,
      process ("please ".data ++ kv.1 ++ " now".data) =
        { text := [], hasCommand := true, commandType := some CommandType.EDITING,
          command := some kv.2, originalCommand := some kv.1 }) := by
  constructor
  · decide
  · decide

/-- Witness for claim C6 at the trigger "new line". -/
theorem claim_C6_witness :
    process ("please ".data ++ "new line".data ++ " now".data) =
      { text := [], hasCommand := true, commandType := some CommandType.NAVIGATION,
        command := some "NEW_LINE", originalCommand := some "new line".data } :=
  claim_C6_substring_directives.1 ("new line".data, "NEW_LINE") (by decide)

/-- Claim C7: the three documented `autoCapitalize` cases, together with the
remaining case that text is returned unchanged when the preceding text already
ends in a space and does not end a sentence. -/
theorem claim_C7_autoCapitalize :
    autoCapitalize "world".data "Hello.".data = " World".data ∧
    autoCapitalize "world".data "".data = "World".data ∧
    autoCapitalize "world".data "Hello".data = " world".data ∧
    ∀ (text prev : List Char) (c : Char), text ≠ [] → jsTrim prev ≠ [] →
      (jsTrim prev).getLast? = some c → c ≠ '.' → c ≠ '!' → c ≠ '?' →
      prev.getLast? = some ' ' →
      autoCapitalize text prev = text := by
  refine ⟨by decide, by decide, by decide, ?_⟩
  intro text prev c htext htrim hlast hd he hq hsp
  have hprev : prev ≠ [] := by
    intro h
    subst h
    simp at hsp
  unfold autoCapitalize
  rw [if_neg htext, if_neg (by tauto : ¬(prev = [] ∨ jsTrim prev = []))]
  simp only [hlast]
  rw [if_neg (by simp [hd, he, hq])]
  rw [if_neg (by simp [hsp])]

/-- Witness for claim C7, exercising the space-terminated preceding-text case. -/
theorem claim_C7_witness :
    autoCapitalize "world".data "Hello ".data = "world".data :=
  claim_C7_autoCapitalize.2.2.2 "world".data "Hello ".data 'o'
    (by decide) (by decide) (by decide) (by decide) (by decide) (by decide) (by decide)

/-- Claim C9 counterexample: the single-space utterance normalizes to the
empty string, yet `process` returns the original one-space text rather than a
plain-text action with empty literal. -/
theorem claim_C9_counterexample :
    jsTrim (" ".data.map Char.toLower) = [] ∧
    process " ".data = { text := " ".data, hasCommand := false } ∧
    " ".data ≠ ([] : List Char) := by
  refine ⟨by decide, by decide, by decide⟩

/-- Claim C9 amended: only the genuinely empty utterance yields a plain-text
action with empty literal; a non-empty all-whitespace utterance yields a
plain-text action carrying the original whitespace text. -/
theorem claim_C9_amended :
    process [] = { text := [], hasCommand := false } ∧
    ∀ l : List Char, l ≠ [] → (∀ c ∈ l, wsChar c = true) →
      process l = { text := l, hasCommand := false } := by
  refine ⟨rfl, ?_⟩
  intro l hne hws
  have hmap : l.map Char.toLower = l := by
    have h1 : ∀ c ∈ l, Char.toLower c = c := fun c hc => toLower_of_ws c (hws c hc)
    calc l.map Char.toLower = l.map id := List.map_congr_left h1
      _ = l := List.map_id l
  have hlow : jsTrim (l.map Char.toLower) = [] := by
    rw [hmap]
    exact jsTrim_eq_nil l hws
  unfold process
  rw [if_neg hne]
  simp only [hlow]
  rfl

/-- Witness for the amended claim C9 at the single-space utterance. -/
theorem claim_C9_amended_witness :
    process " ".data = { text := " ".data, hasCommand := false } :=
  claim_C9_amended.2 " ".data (by decide) (by decide)

end Claims

namespace Transliteration

open SDM

/-- Devanagari Unicode block `ऀ-ॿ`. -/
def devanagariChar (c : Char) : Bool :=
  decide (2304 ≤ c.toNat) && decide (c.toNat ≤ 2431)

/-- Bengali Unicode block `ঀ-৿`. -/
def bengaliChar (c : Char) : Bool :=
  decide (2432 ≤ c.toNat) && decide (c.toNat ≤ 2559)

/-- One extracted special character: the character, its offset in the source
token, and the number of whitespace-delimited words before it. -/
structure SpecialChar where
  char : Char
  position : Nat
  wordPosition : Nat
deriving DecidableEq

/-- Index-tracking worker for `extractSpecialCharacters`. -/
def extractSpecialCharactersAux (text : List Char) (i : Nat) : List Char → List SpecialChar
  | [] => []
  | c :: cs =>
    if !(asciiLetter c || wsChar c || devanagariChar c || bengaliChar c) then
      { char := c, position := i,
        wordPosition := (splitWords (jsTrim (text.take i))).length }
        :: extractSpecialCharactersAux text (i + 1) cs
    else extractSpecialCharactersAux text (i + 1) cs

/-- `Transliteration.extractSpecialCharacters`: every character outside
letters, whitespace and the two target-script blocks, with its offset and
preceding word count. -/
def extractSpecialCharacters (text : List Char) : List SpecialChar :=
  extractSpecialCharactersAux text 0 text

/-- JS `words.join(' ')`. -/
def joinSpace (words : List (List Char)) : List Char := List.intercalate [' '] words

/-- Loop body of `reinsertSpecialCharacters`: walk the (already reversed)
special-character list, appending each to its indexed word when the recorded
word index is below the initially computed transliterated word count, else to
the end of the whole string. -/
def reinsertSpecialCharactersAux (twCount : Nat) : List Char → List SpecialChar → List Char
  | result, [] => result
  | result, sp :: rest =>
    if sp.wordPosition < twCount then
      let ws := splitWords result
      let result' :=
        if h : sp.wordPosition < ws.length then
          joinSpace (ws.set sp.wordPosition (ws.get ⟨sp.wordPosition, h⟩ ++ [sp.char]))
        else result
      reinsertSpecialCharactersAux twCount result' rest
    else reinsertSpecialCharactersAux twCount (result ++ [sp.char]) rest

/-- `Transliteration.reinsertSpecialCharacters`. The third parameter mirrors
the unused `originalText` parameter of the source. -/
def reinsertSpecialCharacters (transliterated : List Char)
    (specialChars : List SpecialChar) (_originalText : List Char) : List Char :=
  if specialChars = [] then transliterated
  else reinsertSpecialCharactersAux (splitWords transliterated).length
    transliterated specialChars.reverse

/-- The `languageMap` object of `callGoogleInputTools`. -/
def languageMap (languageCode : String) : Option String :=
  if languageCode = "hi" then some "hi-t-i0-und"
  else if languageCode = "bn" then some "bn-t-i0-und"
  else none

/-- The segment-collection loop over `data[1]`: a segment contributes exactly
when `segment[1][0]` exists and is a non-empty (truthy) string. A list entry
`none` models a segment without a usable candidate. -/
def extractSegments (data1 : List (Option (List Char))) : List (List Char) :=
  data1.filterMap fun seg =>
    match seg with
    | none => none
    | some s => if s = [] then none else some s

/-- `Transliteration.callGoogleInputTools`. The remote interaction is an
oracle argument: `none` models transport failure, a non-ok status, or a
response whose `data[1]` is missing or not an array (all of which the source
turns into the catch/return-text path); `some data1` models a well-formed
response body. -/
def callGoogleInputTools (text : List Char) (languageCode : String)
    (response : Option (List (Option (List Char)))) : List Char :=
  if languageMap languageCode = none then text
  else
    let specialChars := extractSpecialCharacters text
    match response with
    | none => text
    | some data1 =>
      let segments := extractSegments data1
      if segments = [] then text
      else reinsertSpecialCharacters segments.flatten specialChars text

/-- `Transliteration.transliterate`: empty-token and non-transliterating
language pass-through, then the remote call with error fallback to the
original token. -/
def transliterate (text : List Char) (languageCode : String)
    (response : Option (List (Option (List Char)))) : List Char :=
  if text = [] ∨ jsTrim text = [] then text
  else if languageCode = "en" ∨ languageCode = "de" ∨ languageCode = "es" then text
  else callGoogleInputTools text languageCode response

end Transliteration

namespace Claims

open SDM Transliteration

/-- Claim C2: `transliterate` returns the token unchanged whenever the token
is empty or whitespace-only, the language is outside the transliterating set,
the remote lookup fails in transport, or the response carries no usable
segments. -/
theorem claim_C2_pass_through :
    ∀ (text : List Char) (lc : String) (resp : Option (List (Option (List Char)))),
      (jsTrim text = [] → transliterate text lc resp = text) ∧
      (lc ≠ "hi" → lc ≠ "bn" → transliterate text lc resp = text) ∧
      (resp = none → transliterate text lc resp = text) ∧
      (∀ data1, resp = some data1 → extractSegments data1 = [] →
        transliterate text lc resp = text) := by
  intro text lc resp
  refine ⟨?_, ?_, ?_, ?_⟩
  · intro h
    unfold transliterate
    rw [if_pos (Or.inr h)]
  · intro hhi hbn
    unfold transliterate
    split_ifs with h1 h2
    · rfl
    · rfl
    · unfold callGoogleInputTools
      rw [if_pos (by simp [languageMap, hhi, hbn])]
  · rintro rfl
    unfold transliterate
    split_ifs with h1 h2
    · rfl
    · rfl
    · unfold callGoogleInputTools
      split_ifs with h3
      · rfl
      · rfl
  · rintro data1 rfl hseg
    unfold transliterate
    split_ifs with h1 h2
    · rfl
    · rfl
    · unfold callGoogleInputTools
      split_ifs with h3
      · rfl
      · show (let segments := extractSegments data1;
              if segments = [] then text
              else reinsertSpecialCharacters segments.flatten
                (extractSpecialCharacters text) text) = text
        simp only [hseg]
        rfl

/-- Witness for claim C2: pass-through for the non-transliterating language
tag "en". -/
theorem claim_C2_witness :
    transliterate "hello".data "en" none = "hello".data :=
  (claim_C2_pass_through "hello".data "en" none).2.1 (by decide) (by decide)

end Claims

namespace SDM

/-- On a whitespace-free suffix, `splitWordsAux` closes the current word and
produces at most one word. -/
theorem splitWordsAux_all_nonws :
    ∀ (l cur : List Char), (∀ c ∈ l, wsChar c = false) →
      splitWordsAux cur l =
        if cur.reverse ++ l = [] then [] else [cur.reverse ++ l] := by
  intro l
  induction l with
  | nil =>
      intro cur _
      rcases cur with _ | ⟨c, cs⟩ <;> simp [splitWordsAux]
  | cons c cs ih =>
      intro cur h
      have hc : wsChar c = false := h c (by simp)
      rw [splitWordsAux, if_neg (by simp [hc])]
      rw [ih (c :: cur) (fun d hd => h d (by simp [hd]))]
      simp

/-- A non-empty token without whitespace splits into exactly itself. -/
theorem splitWords_all_nonws (l : List Char) (hne : l ≠ [])
    (h : ∀ c ∈ l, wsChar c = false) : splitWords l = [l] := by
  unfold splitWords
  rw [splitWordsAux_all_nonws l [] h]
  simp [hne]

end SDM

namespace Claims

open SDM Transliteration

/-- Claim C8: for the token "namaste!" with target language hi or bn and an
engine response consisting of a single whitespace-free candidate segment S,
transliteration returns S with the exclamation mark appended at the end of the
string, because the recorded word index 1 of the extracted special character
is not strictly below the transliterated word count 1. -/
theorem claim_C8_special_char_reinsertion :
    ∀ (lc : String) (S : List Char), lc = "hi" ∨ lc = "bn" →
      S ≠ [] → (∀ c ∈ S, wsChar c = false) →
      transliterate "namaste!".data lc (some [some S]) = S ++ ['!'] := by
  intro lc S hlc hne hws
  have hsp : extractSpecialCharacters "namaste!".data =
      [{ char := '!', position := 7, wordPosition := 1 }] := by decide
  have hseg : extractSegments [some S] = [S] := by
    unfold extractSegments
    simp [List.filterMap_cons, hne]
  rcases hlc with rfl | rfl <;>
  · unfold transliterate
    rw [if_neg (by decide), if_neg (by decide)]
    unfold callGoogleInputTools
    rw [if_neg (by decide)]
    show (let segments := extractSegments [some S];
          if segments = [] then "namaste!".data
          else reinsertSpecialCharacters segments.flatten
            (extractSpecialCharacters "namaste!".data) "namaste!".data) = S ++ ['!']
    simp only [hseg, hsp]
    rw [if_neg (by simp [hne])]
    show reinsertSpecialCharacters (List.flatten [S])
        [{ char := '!', position := 7, wordPosition := 1 }] "namaste!".data = S ++ ['!']
    have hflat : List.flatten [S] = S := by simp
    rw [hflat]
    unfold reinsertSpecialCharacters
    rw [if_neg (by simp)]
    rw [splitWords_all_nonws S hne hws]
    show reinsertSpecialCharactersAux 1 S
        [{ char := '!', position := 7, wordPosition := 1 }] = S ++ ['!']
    rw [reinsertSpecialCharactersAux, if_neg (by simp)]
    rfl

/-- Witness for claim C8, exercising both target languages: the Devanagari
segment for "namaste" under hi and the Bengali segment under bn. -/
theorem claim_C8_witness :
    transliterate "namaste!".data "hi" (some [some "नमस्ते".data]) =
      "नमस्ते".data ++ ['!'] ∧
    transliterate "namaste!".data "bn" (some [some "নমস্তে".data]) =
      "নমস্তে".data ++ ['!'] :=
  ⟨claim_C8_special_char_reinsertion "hi" "नमस्ते".data (Or.inl rfl)
      (by decide) (by decide),
   claim_C8_special_char_reinsertion "bn" "নমস্তে".data (Or.inr rfl)
      (by decide) (by decide)⟩

end Claims

namespace TypingMode

open SDM

/-- The fields of the `TypingMode` object that the typing-session operations
read and write. -/
structure State where
  isActive : Bool
  currentLanguage : String
  typingBuffer : List Char
deriving DecidableEq

/-- The `TypingMode` constructor. -/
def init : State :=
  { isActive := false, currentLanguage := "en", typingBuffer := [] }

/-- `TypingMode.enable`: no-op when already active, else activate and clear
the buffer. -/
def enable (s : State) : State :=
  if s.isActive then s
  else { s with isActive := true, typingBuffer := [] }

/-- `TypingMode.disable`: no-op when not active, else deactivate and clear
the buffer. -/
def disable (s : State) : State :=
  if !s.isActive then s
  else { s with isActive := false, typingBuffer := [] }

/-- `TypingMode.setLanguage`: store the language and clear the buffer. -/
def setLanguage (s : State) (languageCode : String) : State :=
  { s with currentLanguage := languageCode, typingBuffer := [] }

/-- JS regex test `/[a-zA-Z]+/.test(text)`: some ASCII letter occurs. -/
def hasAsciiLetter (l : List Char) : Bool := l.any asciiLetter

/-- `TypingMode.processTransliteration`, restricted to its effect on the
session state: an empty or whitespace-only buffer is kept as is, and every
other path — letterless buffer, successful transliteration, or error —
clears the buffer. The oracle argument stands for the awaited transliteration
outcome (`none` models the rejected-promise path). -/
def processTransliteration (s : State) (outcome : Option (List Char)) : State :=
  if s.typingBuffer = [] ∨ jsTrim s.typingBuffer = [] then s
  else if ¬ hasAsciiLetter s.typingBuffer then { s with typingBuffer := [] }
  else
    match outcome with
    | some _ => { s with typingBuffer := [] }
    | none => { s with typingBuffer := [] }

/-- Character class of the word regex in the range-based `replaceLastWord`:
`[a-zA-Zঀ-৿ऀ-ॿ]`. -/
def scriptChar (c : Char) : Bool :=
  asciiLetter c || Transliteration.bengaliChar c || Transliteration.devanagariChar c

/-- The maximal suffix of script characters, JS
`textBeforeCursor.match(/([a-zA-Zঀ-৿ऀ-ॿ]+)$/)`. -/
def lastWordSuffix (l : List Char) : List Char :=
  (l.reverse.takeWhile scriptChar).reverse

/-- The range-based `TypingMode.replaceLastWord`, at the text layer: the
trailing script-character token before the cursor is located in the live
buffer and only that span is replaced. -/
def replaceLastWord (buffer : List Char) (cursor : Nat) (newWord : List Char) : List Char :=
  let textBeforeCursor := buffer.take cursor
  let lastWord := lastWordSuffix textBeforeCursor
  if lastWord = [] then buffer
  else
    let wordStart := textBeforeCursor.length - lastWord.length
    buffer.take wordStart ++ newWord ++ buffer.drop cursor

/-- JS `text.trim().split(/\s+/)` as used by the textContent-variant
`replaceLastWord`: on the empty trimmed string the split yields one empty
piece, else the whitespace-separated words. -/
def jsTrimSplit (l : List Char) : List (List Char) :=
  let t := jsTrim l
  if t = [] then [[]] else splitWords t

/-- The textContent-variant `TypingMode.replaceLastWord`: trim the whole
buffer, split it on whitespace, overwrite the last word, and assign the words
joined by single spaces back as the entire editor content. -/
def replaceLastWordTextContent (buffer : List Char) (newWord : List Char) : List Char :=
  let words := jsTrimSplit buffer
  if words.length > 0 then
    Transliteration.joinSpace (words.set (words.length - 1) newWord)
  else buffer

end TypingMode

namespace DictationApp

open SDM

/-- The two coordinator modes of `DictationApp.switchMode`. -/
inductive AppMode
  | dictate
  | type
deriving DecidableEq

/-- The app-level state relevant to the stale-result question: the current
mode, the shared text editor buffer (cursor at its end), the typing-session
state, and the not-yet-settled transliteration request, holding the captured
last word. -/
structure State where
  mode : AppMode
  buffer : List Char
  typing : TypingMode.State
  pendingLastWord : Option (List Char)
deriving DecidableEq

/-- `DictationApp.switchMode`: set the mode, and enable or disable the typing
session. Note that the pending request is not touched. -/
def switchMode (s : State) (mode : AppMode) : State :=
  match mode with
  | AppMode.type =>
      { s with mode := AppMode.type, typing := TypingMode.enable s.typing }
  | AppMode.dictate =>
      { s with mode := AppMode.dictate, typing := TypingMode.disable s.typing }

/-- First half of `TypingMode.processTransliterationOnSpace`, up to the
`await`: read the live text, take the last whitespace-delimited word; if it is
empty or letterless just insert the suppressed space, else issue the request
for it. -/
def processTransliterationOnSpaceStart (s : State) : State :=
  let words := TypingMode.jsTrimSplit s.buffer
  let lastWord := words.getLast!
  if lastWord = [] ∨ jsTrim lastWord = [] ∨ ¬ TypingMode.hasAsciiLetter lastWord then
    { s with buffer := s.buffer ++ [' '] }
  else { s with pendingLastWord := some lastWord }

/-- Second half of `TypingMode.processTransliterationOnSpace`, after the
`await` settles with `transliterated`: unconditionally replace the last word
(when the result is truthy and differs) and insert the suppressed space.
No mode, language or session check guards this continuation. -/
def processTransliterationOnSpaceSettle (s : State) (transliterated : List Char) : State :=
  match s.pendingLastWord with
  | none => s
  | some lastWord =>
    let buffer1 :=
      if transliterated ≠ [] ∧ transliterated ≠ lastWord then
        TypingMode.replaceLastWord s.buffer s.buffer.length transliterated
      else s.buffer
    { s with buffer := buffer1 ++ [' '], pendingLastWord := none }

end DictationApp

namespace TypingMode

/-- The claimed typing-session invariant: an inactive session has an empty
pending token buffer. -/
def SessionInvariant (s : State) : Prop :=
  s.isActive = false → s.typingBuffer = []

instance (s : State) : Decidable (SessionInvariant s) := by
  unfold SessionInvariant
  infer_instance

end TypingMode

namespace Claims

open SDM TypingMode DictationApp

/-- Claim C10: the constructor establishes the inactive-implies-empty-buffer
invariant and every public typing-session operation preserves it, including
every path of `processTransliteration`. -/
theorem claim_C10_session_invariant :
    SessionInvariant TypingMode.init ∧
    ∀ s : TypingMode.State, SessionInvariant s →
      SessionInvariant (enable s) ∧
      SessionInvariant (disable s) ∧
      (∀ lc, SessionInvariant (setLanguage s lc)) ∧
      (∀ outcome, SessionInvariant (processTransliteration s outcome)) := by
  constructor
  · intro _
    rfl
  · intro s hinv
    refine ⟨?_, ?_, ?_, ?_⟩
    · unfold enable
      split_ifs with h
      · exact hinv
      · intro habs
        simp at habs
    · unfold disable
      split_ifs with h
      · exact hinv
      · intro _
        rfl
    · intro lc _
      rfl
    · intro outcome
      unfold processTransliteration
      split_ifs with h1 h2
      · exact hinv
      all_goals cases outcome <;> intro _ <;> rfl

/-- Witness for claim C10: the invariant survives enabling a fresh session. -/
theorem claim_C10_witness :
    SessionInvariant (enable TypingMode.init) :=
  (claim_C10_session_invariant.2 TypingMode.init (by decide)).1

/-- Claim C5 counterexample: the textContent-variant `replaceLastWord`, on the
buffer "a  b" (two inner spaces) with replacement "X", rewrites the buffer to
"a X"; the characters before the replaced token's span (offset 3) are not
preserved, which the claim requires of both variants. -/
theorem claim_C5_counterexample :
    replaceLastWordTextContent "a  b".data "X".data = "a X".data ∧
    replaceLastWordTextContent "a  b".data "X".data ≠
      "a  b".data.take 3 ++ "X".data := by
  exact ⟨by decide, by decide⟩

/-- Claim C5 amended: the range-based `replaceLastWord` locates the trailing
script-character token in the live buffer at commit time and replaces only
its span, leaving every character before the span and after the cursor
unchanged; the textContent-variant instead rewrites the entire buffer as the
trimmed whitespace-split words joined by single spaces. -/
theorem claim_C5_range_variant_preserves_frame :
    ∀ (buffer : List Char) (cursor : Nat) (newWord : List Char),
      cursor ≤ buffer.length →
      lastWordSuffix (buffer.take cursor) ≠ [] →
      (replaceLastWord buffer cursor newWord).take
          (cursor - (lastWordSuffix (buffer.take cursor)).length) =
        buffer.take (cursor - (lastWordSuffix (buffer.take cursor)).length) ∧
      (replaceLastWord buffer cursor newWord).drop
          (cursor - (lastWordSuffix (buffer.take cursor)).length + newWord.length) =
        buffer.drop cursor := by
  intro buffer cursor newWord hcur hw
  have hlen : (buffer.take cursor).length = cursor := by
    rw [List.length_take]
    omega
  have hwle : (lastWordSuffix (buffer.take cursor)).length ≤ cursor := by
    have h1 : (((buffer.take cursor).reverse.takeWhile scriptChar)).length ≤
        (buffer.take cursor).reverse.length :=
      (List.takeWhile_prefix scriptChar).length_le
    unfold lastWordSuffix
    rw [List.length_reverse]
    rw [List.length_reverse] at h1
    omega
  have hAlen : (buffer.take (cursor - (lastWordSuffix (buffer.take cursor)).length)).length =
      cursor - (lastWordSuffix (buffer.take cursor)).length := by
    rw [List.length_take]
    omega
  unfold replaceLastWord
  rw [if_neg hw]
  simp only [hlen]
  constructor
  · rw [List.take_append_of_le_length (by simp [hAlen]),
      List.take_append_of_le_length (le_of_eq hAlen.symm)]
    simp [List.take_take]
  · rw [List.drop_left' (by simp [hAlen])]

end Claims

namespace Claims

open SDM TypingMode DictationApp

/-- Witness for the amended claim C5 on the buffer "I said namaste" with the
cursor at the end. -/
theorem claim_C5_witness :
    (replaceLastWord "I said namaste".data 14 "नमस्ते".data).take
        (14 - (lastWordSuffix ("I said namaste".data.take 14)).length) =
      "I said namaste".data.take
        (14 - (lastWordSuffix ("I said namaste".data.take 14)).length) ∧
    (replaceLastWord "I said namaste".data 14 "नमस्ते".data).drop
        (14 - (lastWordSuffix ("I said namaste".data.take 14)).length +
          "नमस्ते".data.length) =
      "I said namaste".data.drop 14 :=
  claim_C5_range_variant_preserves_frame "I said namaste".data 14 "नमस्ते".data
    (by decide) (by decide)

/-- Claim C4, behaviour of the code at the failing input: a transliteration
request is started in Type mode for the buffer "namaste", the mode is
switched to Dictate before it resolves, and when the request settles the
continuation still replaces the word and inserts the suppressed space, so the
buffer changes from "namaste" to the transliterated text plus a space instead
of staying as it was at the switch. -/
theorem claim_C4_stale_result_still_applied :
    (DictationApp.processTransliterationOnSpaceStart
        { mode := AppMode.type, buffer := "namaste".data,
          typing := { isActive := true, currentLanguage := "hi",
                      typingBuffer := "namaste".data },
          pendingLastWord := none }).pendingLastWord = some "namaste".data ∧
    (DictationApp.switchMode
        (DictationApp.processTransliterationOnSpaceStart
          { mode := AppMode.type, buffer := "namaste".data,
            typing := { isActive := true, currentLanguage := "hi",
                        typingBuffer := "namaste".data },
            pendingLastWord := none }) AppMode.dictate).buffer = "namaste".data ∧
    (DictationApp.processTransliterationOnSpaceSettle
        (DictationApp.switchMode
          (DictationApp.processTransliterationOnSpaceStart
            { mode := AppMode.type, buffer := "namaste".data,
              typing := { isActive := true, currentLanguage := "hi",
                          typingBuffer := "namaste".data },
              pendingLastWord := none }) AppMode.dictate)
        "नमस्ते".data).buffer = "नमस्ते ".data ∧
    "नमस्ते ".data ≠ "namaste".data := by
  refine ⟨by decide, by decide, by decide, by decide⟩

end Claims

namespace CommandProcessor

open SDM

/-- Every whitespace character of a once-cleaned string is a plain space. -/
def SpaceOnly (c : Char) : Prop := wsChar c = true → c = ' '

/-- No two adjacent whitespace characters. -/
def PairOk1 (c d : Char) : Prop := wsChar c = false ∨ wsChar d = false

/-- No whitespace character directly before punctuation. -/
def PairOk2 (c d : Char) : Prop := wsChar c = false ∨ punctChar d = false

/-- No punctuation character directly followed by a word character. -/
def PairOk3 (c d : Char) : Prop := punctChar c = false ∨ wordChar d = false

/-- Invariant established by the first `cleanSpacing` pass. -/
def R1 (c d : Char) : Prop := PairOk1 c d

/-- Invariant established after the second `cleanSpacing` pass. -/
def R2 (c d : Char) : Prop := PairOk1 c d ∧ PairOk2 c d

/-- Invariant established after the third `cleanSpacing` pass. -/
def R3 (c d : Char) : Prop := PairOk1 c d ∧ PairOk2 c d ∧ PairOk3 c d

/-- A string scan invariant: every character satisfies `SpaceOnly` and every
adjacent pair satisfies the pair relation `R`. -/
inductive Scan (R : Char → Char → Prop) : List Char → Prop
  | nil : Scan R []
  | single {c : Char} : SpaceOnly c → Scan R [c]
  | cons {c d : Char} {cs : List Char} :
      SpaceOnly c → R c d → Scan R (d :: cs) → Scan R (c :: d :: cs)

theorem Scan.tail {R : Char → Char → Prop} {c : Char} {l : List Char}
    (h : Scan R (c :: l)) : Scan R l := by
  cases h with
  | single _ => exact Scan.nil
  | cons _ _ htl => exact htl

theorem Scan.space_head {R : Char → Char → Prop} {c : Char} {cs : List Char}
    (h : Scan R (c :: cs)) : SpaceOnly c := by
  cases h with
  | single hc => exact hc
  | cons hc _ _ => exact hc

theorem Scan.rel_head {R : Char → Char → Prop} {c d : Char} {cs : List Char}
    (h : Scan R (c :: d :: cs)) : R c d := by
  cases h with
  | cons _ hr _ => exact hr

theorem Scan.cons_of {R : Char → Char → Prop} {c : Char} {l : List Char}
    (hc : SpaceOnly c) (hr : ∀ d, l.head? = some d → R c d) (hl : Scan R l) :
    Scan R (c :: l) := by
  cases hl with
  | nil => exact Scan.single hc
  | single hd => exact Scan.cons hc (hr _ rfl) (Scan.single hd)
  | cons hd hrd htl => exact Scan.cons hc (hr _ rfl) (Scan.cons hd hrd htl)

theorem Scan.mono {R S : Char → Char → Prop} (h : ∀ c d, R c d → S c d) :
    ∀ {l : List Char}, Scan R l → Scan S l := by
  intro l hl
  induction hl with
  | nil => exact Scan.nil
  | single hc => exact Scan.single hc
  | cons hc hr _ ih => exact Scan.cons hc (h _ _ hr) ih

/-- Punctuation characters are not whitespace. -/
theorem punctChar_ws_false {c : Char} (h : punctChar c = true) : wsChar c = false := by
  rw [Bool.eq_false_iff]
  intro hw
  simp only [punctChar, Bool.or_eq_true, beq_iff_eq] at h
  simp only [wsChar, Bool.or_eq_true, beq_iff_eq, Bool.and_eq_true,
    decide_eq_true_eq] at hw
  omega

/-- Word characters are not whitespace. -/
theorem wordChar_ws_false {c : Char} (h : wordChar c = true) : wsChar c = false := by
  rw [Bool.eq_false_iff]
  intro hw
  simp only [wordChar, Bool.or_eq_true, beq_iff_eq, Bool.and_eq_true,
    decide_eq_true_eq] at h
  simp only [wsChar, Bool.or_eq_true, beq_iff_eq, Bool.and_eq_true,
    decide_eq_true_eq] at hw
  omega

/-- Word characters are not punctuation. -/
theorem wordChar_punct_false {c : Char} (h : wordChar c = true) : punctChar c = false := by
  rw [Bool.eq_false_iff]
  intro hp
  simp only [wordChar, Bool.or_eq_true, beq_iff_eq, Bool.and_eq_true,
    decide_eq_true_eq] at h
  simp only [punctChar, Bool.or_eq_true, beq_iff_eq] at hp
  omega

/-- Inside a run, the collapsing pass starts its output with a non-whitespace
character. -/
theorem collapse_head_not_ws :
    ∀ (l : List Char) (d : Char),
      (collapseWhitespace true l).head? = some d → wsChar d = false := by
  intro l
  induction l with
  | nil =>
      intro d h
      simp [collapseWhitespace] at h
  | cons c cs ih =>
      intro d h
      by_cases hc : wsChar c = true
      · simp only [collapseWhitespace, hc, if_true] at h
        exact ih d h
      · simp only [collapseWhitespace, hc, if_false, Bool.false_eq_true,
          List.head?_cons, Option.some_inj] at h
        rw [← h]
        exact Bool.eq_false_iff.mpr hc

/-- The collapsing pass establishes: whitespace only as plain spaces, never
two adjacent. -/
theorem collapse_scan1 : ∀ (l : List Char) (b : Bool), Scan R1 (collapseWhitespace b l) := by
  intro l
  induction l with
  | nil =>
      intro b
      exact Scan.nil
  | cons c cs ih =>
      intro b
      by_cases hc : wsChar c = true
      · cases b with
        | true =>
            simp only [collapseWhitespace, hc, if_true]
            exact ih true
        | false =>
            simp only [collapseWhitespace, hc, if_true, if_false, Bool.false_eq_true]
            refine Scan.cons_of (fun _ => rfl) ?_ (ih true)
            intro d hd
            exact Or.inr (collapse_head_not_ws cs d hd)
      · simp only [collapseWhitespace, hc, if_false, Bool.false_eq_true]
        refine Scan.cons_of (fun h => absurd h hc) ?_ (ih false)
        intro d _
        exact Or.inl (Bool.eq_false_iff.mpr hc)

end CommandProcessor

namespace CommandProcessor

open SDM

/-- The space-before-punctuation pass preserves the pass-1 invariant and
additionally removes every whitespace-before-punctuation pair. The second
conjunct handles the scanner state holding one buffered whitespace character,
the only state reachable from pass-1 output. -/
theorem dropSpace_scan2 :
    ∀ l : List Char, Scan R1 l →
      Scan R2 (dropSpaceBeforePunct [] l) ∧
      (∀ c, wsChar c = true → Scan R1 (c :: l) →
        Scan R2 (dropSpaceBeforePunct [c] l)) := by
  intro l
  induction l with
  | nil =>
      intro _
      constructor
      · exact Scan.nil
      · intro c _ hscan
        exact Scan.single hscan.space_head
  | cons d cs ih =>
      intro hscan
      obtain ⟨ih1, ih2⟩ := ih hscan.tail
      constructor
      · by_cases hd : wsChar d = true
        · have h2 := ih2 d hd hscan
          simpa only [dropSpaceBeforePunct, hd, if_true] using h2
        · have hgoal : dropSpaceBeforePunct [] (d :: cs) =
              d :: dropSpaceBeforePunct [] cs := by
            simp [dropSpaceBeforePunct, hd]
          rw [hgoal]
          refine Scan.cons_of hscan.space_head ?_ ih1
          intro e _
          have hdf : wsChar d = false := Bool.eq_false_iff.mpr hd
          exact ⟨Or.inl hdf, Or.inl hdf⟩
      · intro c hc hsc
        have hr1 : R1 c d := hsc.rel_head
        have hdns : wsChar d = false := hr1.resolve_left (by simp [hc])
        by_cases hpd : punctChar d = true
        · have hgoal : dropSpaceBeforePunct [c] (d :: cs) =
              d :: dropSpaceBeforePunct [] cs := by
            simp [dropSpaceBeforePunct, hdns, hpd]
          rw [hgoal]
          refine Scan.cons_of hscan.space_head ?_ ih1
          intro e _
          exact ⟨Or.inl hdns, Or.inl hdns⟩
        · have hgoal : dropSpaceBeforePunct [c] (d :: cs) =
              c :: d :: dropSpaceBeforePunct [] cs := by
            simp [dropSpaceBeforePunct, hdns, hpd]
          rw [hgoal]
          refine Scan.cons hsc.space_head ⟨hr1, Or.inr (Bool.eq_false_iff.mpr hpd)⟩ ?_
          refine Scan.cons_of hscan.space_head ?_ ih1
          intro e _
          exact ⟨Or.inl hdns, Or.inl hdns⟩

/-- The third pass leaves the head character of a non-empty list in place. -/
theorem addSpace_head (d : Char) (cs : List Char) :
    (addSpaceAfterPunct (d :: cs)).head? = some d := by
  cases cs with
  | nil => rfl
  | cons e es =>
      simp only [addSpaceAfterPunct]
      split_ifs <;> rfl

/-- The punctuation-spacing pass preserves the earlier invariants and
additionally removes every punctuation-followed-by-word-character pair. -/
theorem addSpace_scan3_aux :
    ∀ (n : Nat) (l : List Char), l.length ≤ n → Scan R2 l →
      Scan R3 (addSpaceAfterPunct l) := by
  intro n
  induction n with
  | zero =>
      intro l hl _
      have : l = [] := by
        cases l with
        | nil => rfl
        | cons c cs => simp at hl
      rw [this]
      exact Scan.nil
  | succ n ih =>
      intro l hl hsc
      match l with
      | [] => exact Scan.nil
      | [c] => exact Scan.single hsc.space_head
      | c :: d :: cs =>
        have hr2 : R2 c d := hsc.rel_head
        by_cases hcd : punctChar c = true ∧ wordChar d = true
        · obtain ⟨hpc, hwd⟩ := hcd
          have hgoal : addSpaceAfterPunct (c :: d :: cs) =
              c :: ' ' :: d :: addSpaceAfterPunct cs := by
            simp [addSpaceAfterPunct, hpc, hwd]
          rw [hgoal]
          have hlen : cs.length ≤ n := by
            simp only [List.length_cons] at hl
            omega
          have hrest : Scan R3 (addSpaceAfterPunct cs) := ih cs hlen hsc.tail.tail
          have hdws : wsChar d = false := wordChar_ws_false hwd
          have hdpc : punctChar d = false := wordChar_punct_false hwd
          have hcws : wsChar c = false := punctChar_ws_false hpc
          have h1 : Scan R3 (d :: addSpaceAfterPunct cs) := by
            refine Scan.cons_of (fun h => absurd h (by simp [hdws])) ?_ hrest
            intro e _
            exact ⟨Or.inl hdws, Or.inl hdws, Or.inl hdpc⟩
          have h2 : Scan R3 (' ' :: d :: addSpaceAfterPunct cs) :=
            Scan.cons (fun _ => rfl)
              ⟨Or.inr hdws, Or.inr hdpc, Or.inl (by decide)⟩ h1
          exact Scan.cons hsc.space_head
            ⟨Or.inl hcws, Or.inr (by decide), Or.inr (by decide)⟩ h2
        · have hgoal : addSpaceAfterPunct (c :: d :: cs) =
              c :: addSpaceAfterPunct (d :: cs) := by
            rw [addSpaceAfterPunct, if_neg (by simpa [Bool.and_eq_true] using hcd)]
          rw [hgoal]
          have hlen : (d :: cs).length ≤ n := by
            simp only [List.length_cons] at hl ⊢
            omega
          have hrest : Scan R3 (addSpaceAfterPunct (d :: cs)) := ih (d :: cs) hlen hsc.tail
          refine Scan.cons_of hsc.space_head ?_ hrest
          intro e he
          rw [addSpace_head d cs] at he
          have hed : e = d := by
            injection he with h
            exact h.symm
          subst hed
          refine ⟨hr2.1, hr2.2, ?_⟩
          by_cases hpc : punctChar c = true
          · right
            cases hwd : wordChar e with
            | false => rfl
            | true => exact absurd ⟨hpc, hwd⟩ hcd
          · left
            exact Bool.eq_false_iff.mpr hpc

end CommandProcessor

namespace CommandProcessor

open SDM

/-- On a string satisfying the pass-1 invariant, the collapsing pass is the
identity; when entered mid-run it is the identity provided the head is not
whitespace. -/
theorem collapse_id :
    ∀ l : List Char, Scan R1 l →
      collapseWhitespace false l = l ∧
      ((∀ d, l.head? = some d → wsChar d = false) → collapseWhitespace true l = l) := by
  intro l
  induction l with
  | nil =>
      intro _
      exact ⟨rfl, fun _ => rfl⟩
  | cons c cs ih =>
      intro hsc
      obtain ⟨ih1, ih2⟩ := ih hsc.tail
      by_cases hc : wsChar c = true
      · have hcsp : c = ' ' := hsc.space_head hc
        have hhead : ∀ d, cs.head? = some d → wsChar d = false := by
          intro d hd
          cases cs with
          | nil => simp at hd
          | cons e es =>
              simp only [List.head?_cons, Option.some_inj] at hd
              have hr : R1 c e := hsc.rel_head
              rw [← hd]
              exact hr.resolve_left (by simp [hc])
        constructor
        · simp only [collapseWhitespace, hc, if_true, if_false, Bool.false_eq_true]
          rw [ih2 hhead, hcsp]
        · intro hh
          exact absurd hc (by simp [hh c rfl])
      · constructor
        · simp only [collapseWhitespace, hc, if_false, Bool.false_eq_true]
          rw [ih1]
        · intro _
          simp only [collapseWhitespace, hc, if_false, Bool.false_eq_true]
          rw [ih1]

/-- On a string satisfying the pass-2 invariant, the space-before-punctuation
pass is the identity, also when one buffered whitespace character is pending
and compatible with the invariant. -/
theorem dropSpace_id :
    ∀ l : List Char, Scan R2 l →
      dropSpaceBeforePunct [] l = l ∧
      (∀ c, wsChar c = true → Scan R2 (c :: l) →
        dropSpaceBeforePunct [c] l = c :: l) := by
  intro l
  induction l with
  | nil =>
      intro _
      exact ⟨rfl, fun c _ _ => rfl⟩
  | cons d cs ih =>
      intro hsc
      obtain ⟨ih1, ih2⟩ := ih hsc.tail
      constructor
      · by_cases hd : wsChar d = true
        · have h2 := ih2 d hd hsc
          simpa only [dropSpaceBeforePunct, hd, if_true] using h2
        · simp [dropSpaceBeforePunct, hd, ih1]
      · intro c hc hsc2
        have hr : R2 c d := hsc2.rel_head
        have hdws : wsChar d = false := hr.1.resolve_left (by simp [hc])
        have hdpunct : punctChar d = false := hr.2.resolve_left (by simp [hc])
        simp [dropSpaceBeforePunct, hdws, hdpunct, ih1]

/-- On a string satisfying the full invariant, the punctuation-spacing pass is
the identity. -/
theorem addSpace_id : ∀ l : List Char, Scan R3 l → addSpaceAfterPunct l = l := by
  intro l
  induction l with
  | nil =>
      intro _
      rfl
  | cons c cs ih =>
      intro hsc
      cases cs with
      | nil => rfl
      | cons d ds =>
          have hr : R3 c d := hsc.rel_head
          have hcond : (punctChar c && wordChar d) = false := by
            rcases hr.2.2 with h | h <;> simp [h]
          simp [addSpaceAfterPunct, hcond, ih hsc.tail]

/-- One application of `cleanSpacing` establishes the full invariant. -/
theorem cleanSpacing_scan3 (l : List Char) : Scan R3 (cleanSpacing l) := by
  unfold cleanSpacing
  exact addSpace_scan3_aux _ _ le_rfl (dropSpace_scan2 _ (collapse_scan1 l false)).1

/-- `cleanSpacing` is the identity on strings satisfying the full invariant. -/
theorem cleanSpacing_id_of_scan3 (l : List Char) (h : Scan R3 l) :
    cleanSpacing l = l := by
  have h1 : Scan R1 l := Scan.mono (fun _ _ hr => hr.1) h
  have h2 : Scan R2 l := Scan.mono (fun _ _ hr => ⟨hr.1, hr.2.1⟩) h
  unfold cleanSpacing
  rw [(collapse_id l h1).1, (dropSpace_id l h2).1, addSpace_id l h]

end CommandProcessor

namespace Claims

open SDM CommandProcessor

/-- Claim C3: `cleanSpacing` — whitespace-run collapsing, then deletion of
whitespace before punctuation, then space insertion after punctuation before a
word character, in that fixed order — is idempotent on every input. -/
theorem claim_C3_cleanSpacing_idempotent :
    ∀ x : List Char, cleanSpacing (cleanSpacing x) = cleanSpacing x := by
  intro x
  exact cleanSpacing_id_of_scan3 _ (cleanSpacing_scan3 x)

end Claims
